import Mathlib

/-!
Verification of the key4ce terminal typing trainer.

Conventions of the embedding:
* Python strings are modelled as `List Char` (or `String` where the value is
  only carried around); Python floats for times and metrics are modelled as `ℚ`.
* `time.time()` is modelled by threading the current time `now : ℚ` as an
  explicit argument into every function that reads the clock.
* Python sets are modelled as `Finset`, Python `None` as `Option.none`.
* Callbacks (`on_keystroke`, `on_combo_break`, `on_milestone`) and the
  engine-level milestone bookkeeping only produce UI events; they never touch
  the `TypingState` fields, so they are omitted from the state transitions.
-/

set_option maxRecDepth 4000

namespace Key4ce

namespace Engine

/-- Result of processing a keystroke (`key4ce/core/engine.py`, `KeystrokeResult`). -/
inductive KeystrokeResult where
  | correct
  | incorrect
  | backspace
  | word_complete
  | text_complete
deriving DecidableEq

/-- A key fed to `TypingEngine.process_key`: the dispatcher delivers either a
printable character or a backspace token (`"\b"` / `"backspace"`). -/
inductive Key where
  | char (c : Char)
  | backspace
deriving DecidableEq

/-- Record of a single keystroke (`key4ce/core/engine.py`, `Keystroke`).
`expected` is `none` when Python would store the empty string `expected or ""`. -/
structure Keystroke where
  char : Char
  expected : Option Char
  timestamp : ℚ
  is_correct : Bool
  position : Nat
  wpm_at_time : ℚ
deriving DecidableEq

/-- Current state of the typing session (`key4ce/core/engine.py`, `TypingState`). -/
structure TypingState where
  text : List Char
  position : Nat := 0
  errors : Nat := 0
  correct : Nat := 0
  start_time : Option ℚ := none
  last_keystroke_time : Option ℚ := none
  combo : Nat := 0
  max_combo : Nat := 0
  keystrokes : List Keystroke := []
  error_positions : Finset Nat := ∅
deriving DecidableEq

/-- `TypingState.current_char`: the character expected at the cursor, if any. -/
def currentChar (s : TypingState) : Option Char :=
  s.text.get? s.position

/-- `TypingState.is_complete`: `position >= len(text)`. -/
def isComplete (s : TypingState) : Bool :=
  decide (s.text.length ≤ s.position)

/-- `TypingState.elapsed_time` at clock value `now`. -/
def elapsedTime (s : TypingState) (now : ℚ) : ℚ :=
  match s.start_time with
  | none => 0
  | some t => now - t

/-- `TypingState.accuracy`: percentage of correct presses, `100.0` when empty. -/
def accuracy (s : TypingState) : ℚ :=
  if s.correct + s.errors = 0 then 100
  else ((s.correct : ℚ) / ((s.correct : ℚ) + (s.errors : ℚ))) * 100

/-- `TypingState.wpm` at clock value `now` (5 chars = 1 word). -/
def stateWpm (s : TypingState) (now : ℚ) : ℚ :=
  if elapsedTime s now < 1/10 then 0
  else ((s.correct : ℚ) / 5) / (elapsedTime s now / 60)

/-- `TypingEngine._handle_correct`: advance, count, update combo, report result. -/
def handleCorrect (s : TypingState) (ks : Keystroke) : TypingState × KeystrokeResult :=
  let s1 : TypingState :=
    { s with
      position := s.position + 1
      correct := s.correct + 1
      combo := s.combo + 1
      max_combo := if s.max_combo < s.combo + 1 then s.combo + 1 else s.max_combo }
  (s1, if isComplete s1 then .text_complete
       else if ks.char = ' ' then .word_complete
       else .correct)

/-- `TypingEngine._handle_incorrect`: record the error position, then ADVANCE the
position ("don't block on errors"), count the error and break the combo. -/
def handleIncorrect (s : TypingState) (ks : Keystroke) : TypingState × KeystrokeResult :=
  let s1 : TypingState :=
    { s with
      error_positions := insert s.position s.error_positions
      position := s.position + 1
      errors := s.errors + 1
      combo := if 0 < s.combo then 0 else s.combo }
  (s1, if isComplete s1 then .text_complete else .incorrect)

/-- `TypingEngine._handle_backspace`: step back if possible and clear a recorded
error highlight at the new position; the error counter is untouched. -/
def handleBackspace (s : TypingState) (timestamp : ℚ) : TypingState × KeystrokeResult :=
  (if 0 < s.position then
     let s1 : TypingState := { s with position := s.position - 1 }
     if s1.position ∈ s1.error_positions then
       { s1 with error_positions := s1.error_positions.erase s1.position }
     else s1
   else s,
   .backspace)

/-- `TypingEngine.process_key`: stamp `start_time` on the very first key, route
backspace, no-op past completion, otherwise record a keystroke and dispatch. -/
def processKey (s : TypingState) (key : Key) (now : ℚ) : TypingState × KeystrokeResult :=
  let s0 : TypingState := if s.start_time.isNone then { s with start_time := some now } else s
  match key with
  | .backspace => handleBackspace s0 now
  | .char c =>
    if isComplete s0 then (s0, .text_complete)
    else
      let expected := currentChar s0
      let is_corr : Bool := expected == some c
      let ks : Keystroke :=
        { char := c
          expected := expected
          timestamp := now
          is_correct := is_corr
          position := s0.position
          wpm_at_time := stateWpm s0 now }
      let s1 : TypingState := { s0 with keystrokes := s0.keystrokes ++ [ks] }
      let r := if is_corr then handleCorrect s1 ks else handleIncorrect s1 ks
      ({ r.1 with last_keystroke_time := some now }, r.2)

/-- `TypingEngine.is_started`: the session has started once `start_time` is set. -/
def isStarted (s : TypingState) : Bool :=
  s.start_time.isSome

/-- A fresh engine state for a target text (`TypingEngine.__init__`). -/
def initState (text : List Char) : TypingState :=
  { text := text }

/-- One step of the engine on a timed key. -/
def stepEngine (s : TypingState) (kt : Key × ℚ) : TypingState :=
  (processKey s kt.1 kt.2).1

/-- Run the engine from a fresh state over a whole timed input sequence. -/
def runEngine (text : List Char) (inputs : List (Key × ℚ)) : TypingState :=
  inputs.foldl stepEngine (initState text)

/-- The state reached by typing the wrong key `'x'` against target `"ab"`. -/
def stateAfterWrongKey : TypingState :=
  (processKey (initState ['a', 'b']) (.char 'x') 0).1

/-- A concrete mid-session state: target `"ab"`, position 1, one recorded error
highlighted at position 0. -/
def midSessionState : TypingState :=
  { initState ['a', 'b'] with position := 1, errors := 1, error_positions := {0} }

end Engine

/-- Python's `sum(1 for x in l if p x)` counting idiom. -/
def countTrue (p : α → Bool) (l : List α) : Nat :=
  l.foldl (fun acc x => if p x then acc + 1 else acc) 0

/-- Python `int()` truncation of a rational toward zero. -/
def ratTrunc (q : ℚ) : ℤ :=
  if q < 0 then -(Rat.floor (-q)) else Rat.floor q

/-- Python 3 `round` to an integer: round half to even (banker's rounding). -/
def pyRoundInt (q : ℚ) : ℤ :=
  let f := Int.floor q
  let r := q - (f : ℚ)
  if r < 1/2 then f
  else if 1/2 < r then f + 1
  else if f % 2 = 0 then f else f + 1

/-- Python `round(x, 1)`. -/
def round1 (q : ℚ) : ℚ :=
  (pyRoundInt (q * 10) : ℚ) / 10

/-- Python `round(x, 2)`. -/
def round2 (q : ℚ) : ℚ :=
  (pyRoundInt (q * 100) : ℚ) / 100

namespace Recorder

/-- Per-keystroke record of `key4ce/core/recorder.py` (`Keystroke`). -/
structure Keystroke where
  char : String
  expected : String
  timestamp : ℚ
  is_correct : Bool
  position : Nat
deriving DecidableEq

/-- Append-only keystroke log (`KeystrokeTimeline`). -/
structure KeystrokeTimeline where
  start_time : ℚ
  keystrokes : List Keystroke
deriving DecidableEq

/-- `KeystrokeTimeline.elapsed_seconds` at clock value `now`. -/
def elapsed_seconds (tl : KeystrokeTimeline) (now : ℚ) : ℚ :=
  now - tl.start_time

/-- `KeystrokeTimeline.snapshot_wpm`: rolling WPM over the last
`window_sec` seconds, evaluated at clock value `now`. -/
def snapshot_wpm (tl : KeystrokeTimeline) (now : ℚ) (window_sec : ℚ) : ℚ :=
  let cutoff := now - window_sec
  let correct_in_window :=
    countTrue (fun k => k.is_correct && decide (cutoff ≤ k.timestamp)) tl.keystrokes
  let elapsed := min (now - tl.start_time) window_sec
  if elapsed < 1/2 then 0
  else ((correct_in_window : ℚ) / 5) / (elapsed / 60)

/-- `KeystrokeTimeline.final_wpm`: net WPM over the full session. -/
def final_wpm (tl : KeystrokeTimeline) (now : ℚ) : ℚ :=
  let elapsed := elapsed_seconds tl now
  if elapsed < 1 then 0
  else ((countTrue (fun k => k.is_correct) tl.keystrokes : ℚ) / 5) / (elapsed / 60)

/-- `KeystrokeTimeline.accuracy`: percentage of correct presses. -/
def accuracy (tl : KeystrokeTimeline) : ℚ :=
  let total := tl.keystrokes.length
  if total = 0 then 100
  else ((countTrue (fun k => k.is_correct) tl.keystrokes : ℚ) / (total : ℚ)) * 100

/-- The number of buckets used by `wpm_buckets`: `max(1, int(total / bucket_sec))`. -/
def nBuckets (tl : KeystrokeTimeline) (now : ℚ) (bucket_sec : ℚ) : Nat :=
  max 1 (ratTrunc (elapsed_seconds tl now / bucket_sec)).toNat

/-- The `chars` count for bucket `b` of `wpm_buckets`: correct keystrokes with
timestamp in `[start_time + b*bucket_sec, start_time + (b+1)*bucket_sec)`. -/
def bucketCount (tl : KeystrokeTimeline) (bucket_sec : ℚ) (b : Nat) : Nat :=
  let lo := tl.start_time + (b : ℚ) * bucket_sec
  let hi := lo + bucket_sec
  countTrue (fun k => k.is_correct && decide (lo ≤ k.timestamp) && decide (k.timestamp < hi))
    tl.keystrokes

/-- The per-bucket correct-keystroke counts underlying `wpm_buckets`. -/
def bucketCounts (tl : KeystrokeTimeline) (now : ℚ) (bucket_sec : ℚ) : List Nat :=
  (List.range (nBuckets tl now bucket_sec)).map (bucketCount tl bucket_sec)

/-- `KeystrokeTimeline.wpm_buckets`: WPM per time bucket, for the graph. -/
def wpm_buckets (tl : KeystrokeTimeline) (now : ℚ) (bucket_sec : ℚ) : List ℚ :=
  if tl.keystrokes = [] then []
  else
    (List.range (nBuckets tl now bucket_sec)).map fun b =>
      round1 (((bucketCount tl bucket_sec b : ℚ) / 5) / (bucket_sec / 60))

/-- A timeline whose single correct keystroke falls past the last whole bucket:
start at 0, one correct key at t = 6. -/
def cexTimeline : KeystrokeTimeline :=
  { start_time := 0, keystrokes := [{ char := "a", expected := "a", timestamp := 6, is_correct := true, position := 0 }] }

end Recorder

/-- Arithmetic mean of a list of rationals (0 on the empty list). -/
def mean (l : List ℚ) : ℚ :=
  if l = [] then 0 else l.sum / (l.length : ℚ)

/-- Insert `a` into `l` in front of the first element `b` with `le a b = true`. -/
def insertLe (le : α → α → Bool) (a : α) : List α → List α
  | [] => [a]
  | b :: l => if le a b then a :: b :: l else b :: insertLe le a l

/-- Insertion sort by the boolean relation `le` (models Python's `sorted`). -/
def sortLe (le : α → α → Bool) : List α → List α
  | [] => []
  | a :: l => insertLe le a (sortLe le l)

namespace Analyzer

open Recorder

/-- One entry of the analyzer's `slow_digraphs` list:
`(digraph, avg_ms, deviation_ms)` plus its sample count. -/
structure DigraphStat where
  digraph : String
  avg_ms : ℚ
  deviation_ms : ℚ
  count : Nat
deriving DecidableEq

/-- Modelled from the spec: the Rich-TUI analyzer (`analyse`, imported by
`key4ce/ui/app.py` and whose `SessionAnalysis` is rendered by
`key4ce/ui/screens/results.py`) is absent from the source tree; spec §4.3
step 3 defines its slow-digraph computation.  Consecutive pairs of *correct*
keystrokes of the timeline. -/
def correctPairs (tl : KeystrokeTimeline) : List (Keystroke × Keystroke) :=
  let correct := tl.keystrokes.filter (fun k => k.is_correct)
  correct.zip correct.tail

/-- Modelled from the spec: accepted digraph intervals — consecutive correct
pairs with position gap exactly 1 (backtrack-then-retype guard) and
`0 < dt_ms < 2000` (outlier guard), keyed by `prev.expected + curr.expected`. -/
def acceptedIntervals (tl : KeystrokeTimeline) : List (String × ℚ) :=
  (correctPairs tl).filterMap fun pc =>
    if pc.2.position = pc.1.position + 1 then
      if 0 < (pc.2.timestamp - pc.1.timestamp) * 1000 ∧
          (pc.2.timestamp - pc.1.timestamp) * 1000 < 2000 then
        some (pc.1.expected ++ pc.2.expected, (pc.2.timestamp - pc.1.timestamp) * 1000)
      else none
    else none

/-- Modelled from the spec: global average over all accepted intervals. -/
def overallAvg (tl : KeystrokeTimeline) : ℚ :=
  mean ((acceptedIntervals tl).map (fun x => x.2))

/-- Modelled from the spec: the accepted samples of one digraph. -/
def digraphSamples (tl : KeystrokeTimeline) (d : String) : List ℚ :=
  ((acceptedIntervals tl).filter (fun x => x.1 == d)).map (fun x => x.2)

/-- Modelled from the spec: per-digraph averages and deviations for every
digraph with at least 2 accepted samples. -/
def digraphGroups (tl : KeystrokeTimeline) : List DigraphStat :=
  (((acceptedIntervals tl).map (fun x => x.1)).dedup).filterMap fun d =>
    let samples := digraphSamples tl d
    if 2 ≤ samples.length then
      some { digraph := d, avg_ms := mean samples,
             deviation_ms := mean samples - overallAvg tl,
             count := samples.length }
    else none

/-- Modelled from the spec: slow digraphs sorted by descending deviation,
top 5. -/
def slow_digraphs (tl : KeystrokeTimeline) : List DigraphStat :=
  (sortLe (fun a b => decide (b.deviation_ms ≤ a.deviation_ms)) (digraphGroups tl)).take 5

end Analyzer

/-- Python's whitespace test (`str.split()` / `\s` over ASCII text). -/
def pyIsSpace (c : Char) : Bool :=
  c == ' ' || c == '\t' || c == '\n' || c == '\r' || c == '\x0b' || c == '\x0c'

/-- Worker for Python's `str.split()`: split on whitespace runs, drop empties.
`acc` holds the current word reversed. -/
def splitWsAux : List Char → List Char → List (List Char)
  | [], acc => if acc = [] then [] else [acc.reverse]
  | c :: rest, acc =>
    if pyIsSpace c then
      if acc = [] then splitWsAux rest []
      else acc.reverse :: splitWsAux rest []
    else splitWsAux rest (c :: acc)

/-- Python's `" ".join` over character lists. -/
def joinSpace : List (List Char) → List Char
  | [] => []
  | [w] => w
  | w :: ws => w ++ ' ' :: joinSpace ws

/-- Python's `s.split()` (no separator argument). -/
def pySplitWs (s : String) : List String :=
  (splitWsAux s.toList []).map (fun l => String.mk l)

/-- Python's `" ".join(ws)`. -/
def pyJoinWords (ws : List String) : String :=
  String.mk (joinSpace (ws.map String.toList))

/-- Python's `s.strip()` over a character list. -/
def stripWsChars (l : List Char) : List Char :=
  ((l.dropWhile pyIsSpace).reverse.dropWhile pyIsSpace).reverse

/-- Python's `s.strip()`. -/
def pyStrip (s : String) : String :=
  String.mk (stripWsChars s.toList)

/-- Python's `sub in l` for character lists, via a starts-with scan. -/
def listStarts : List Char → List Char → Bool
  | [], _ => true
  | _ :: _, [] => false
  | a :: s, b :: l => a == b && listStarts s l

/-- Python's substring test `sub in l`. -/
def hasSub (sub : List Char) : List Char → Bool
  | [] => listStarts sub []
  | c :: r => listStarts sub (c :: r) || hasSub sub r

/-- Worker for `countSub`: the fuel starts at the list length and stays at
least the remaining length, so it never runs out before the scan ends. -/
def countSubAux (sub : List Char) : Nat → List Char → Nat
  | 0, _ => 0
  | _ + 1, [] => 0
  | fuel + 1, c :: r =>
    if listStarts sub (c :: r) then 1 + countSubAux sub fuel ((c :: r).drop sub.length)
    else countSubAux sub fuel r

/-- Python's `l.count(sub)`: non-overlapping left-to-right occurrences
(`l.count("")` is `len(l) + 1`). -/
def countSub (sub : List Char) (l : List Char) : Nat :=
  if sub = [] then l.length + 1 else countSubAux sub l.length l

namespace Focus

/-- `COMMON_WORDS` from `key4ce/content/builtin.py`. -/
def COMMON_WORDS : List String := [
  "the", "be", "to", "of", "and", "a", "in", "that", "have", "it",
  "for", "not", "on", "with", "he", "as", "you", "do", "at", "this",
  "but", "his", "by", "from", "they", "we", "say", "her", "she", "or",
  "an", "will", "my", "one", "all", "would", "there", "their", "what",
  "so", "up", "out", "if", "about", "who", "get", "which", "go", "me",
  "when", "make", "can", "like", "time", "no", "just", "him", "know",
  "take", "people", "into", "year", "your", "good", "some", "could",
  "them", "see", "other", "than", "then", "now", "look", "only", "come",
  "its", "over", "think", "also", "back", "after", "use", "two", "how",
  "our", "work", "first", "well", "way", "even", "new", "want", "because",
  "any", "these", "give", "day", "most", "us", "great", "between", "need",
  "large", "often", "hand", "high", "place", "hold", "turn", "help",
  "start", "show", "hear", "play", "run", "move", "live", "believe",
  "hold", "bring", "happen", "write", "provide", "sit", "stand", "lose",
  "pay", "meet", "include", "continue", "set", "learn", "change", "lead",
  "understand", "watch", "follow", "stop", "create", "speak", "read",
  "spend", "grow", "open", "walk", "win", "offer", "remember", "love",
  "consider", "appear", "buy", "wait", "serve", "die", "send", "expect",
  "build", "stay", "fall", "cut", "reach", "kill", "remain", "suggest"]

/-- `SENTENCES` from `key4ce/content/builtin.py`. -/
def SENTENCES : List String := [
  "the quick brown fox jumps over the lazy dog",
  "pack my box with five dozen liquor jugs",
  "how vexingly quick daft zebras jump",
  "the five boxing wizards jump quickly",
  "sphinx of black quartz judge my vow",
  "practice makes perfect and patience pays off",
  "focus on accuracy first and speed will follow naturally",
  "every expert was once a beginner who refused to give up",
  "small consistent improvements lead to remarkable results over time",
  "your fingers remember patterns better than your conscious mind does",
  "the best time to start improving was yesterday the second best is now",
  "slow down to speed up let accuracy guide your fingers first",
  "typing is a skill built through repetition not through rushing",
  "keep your wrists relaxed and let your fingers find their natural rhythm",
  "consistency beats intensity when building any long term skill like typing",
  "each keystroke is a small decision that shapes your overall fluency",
  "the keyboard is an instrument and like any instrument practice rewires your brain",
  "errors are not failures they are data points that guide your improvement",
  "building muscle memory takes time but once built it becomes effortless",
  "trust the process and enjoy the incremental progress you make each day",
  "technology is best when it brings people together and helps them communicate clearly",
  "a smooth workflow depends on the tools you use and how well you use them",
  "clear communication starts with the ability to express your thoughts quickly",
  "the mark of a skilled typist is consistency not just sheer speed",
  "in the long run the habit of daily practice outweighs any single session"]

/-- `_score_word`: +3 per contained weak digraph, +1 per occurrence of each
problem character (digraphs are matched as given, the word is lower-cased). -/
def scoreWord (word : String) (digraphs problem_chars : List String) : ℤ :=
  let word_l := word.toList.map Char.toLower
  let s1 := digraphs.foldl
    (fun acc dg => if hasSub dg.toList word_l then acc + 3 else acc) 0
  problem_chars.foldl (fun acc ch => acc + (countSub ch.toList word_l : ℤ)) s1

/-- `n_high = max(1, int(word_target * 0.6))`: the float product `wt * 0.6`
truncates to `⌊3·wt/5⌋` exactly (the rounding error of the binary double `0.6`
stays far below half an ulp for any realistic word target). -/
def nHighFor (word_target : ℕ) : ℕ :=
  max 1 ((3 * word_target) / 5)

/-- The common words with their scores, sorted by `key=lambda x: -x[1]`
(descending score; Python's stable sort modelled by insertion sort). -/
def scoredWords (weak problem : List String) : List (String × ℤ) :=
  sortLe (fun a b => decide (-a.2 ≤ -b.2))
    (COMMON_WORDS.map (fun w => (w, scoreWord w weak problem)))

/-- Words with positive score. -/
def highPool (weak problem : List String) : List String :=
  ((scoredWords weak problem).filter (fun ws => decide (0 < ws.2))).map (fun ws => ws.1)

/-- Words with zero score (the filler pool). -/
def fillerPool (weak problem : List String) : List String :=
  ((scoredWords weak problem).filter (fun ws => decide (ws.2 = 0))).map (fun ws => ws.1)

/-- `if not high: high = filler`. -/
def effectiveHigh (weak problem : List String) : List String :=
  if highPool weak problem = [] then fillerPool weak problem else highPool weak problem

/-- `n` draws of `random.choice(pool)`, the RNG modelled by an arbitrary index
stream `rand` consumed from offset `base`. -/
def pickList (pool : List String) (rand : ℕ → ℕ) (base n : ℕ) : List String :=
  (List.range n).map (fun i => pool.getD (rand (base + i) % pool.length) "")

/-- The `selected` list of `generate_focus_text` before the final shuffle:
`n_high` draws from the (effective) high pool, then `word_target - n_high`
draws from the filler pool, each loop skipped when its pool is empty. -/
def selectedWords (weak problem : List String) (word_target : ℕ)
    (rand : ℕ → ℕ) : List String :=
  (if effectiveHigh weak problem = [] then []
   else pickList (effectiveHigh weak problem) rand 0 (nHighFor word_target)) ++
  (if fillerPool weak problem = [] then []
   else pickList (fillerPool weak problem) rand (nHighFor word_target)
     (word_target - nHighFor word_target))

/-- The sentences-fallback accumulation loop of `generate_focus_text`. -/
def buildExcerptAux (word_target : ℕ) : List String → String → String
  | [], out => out
  | s :: rest, out =>
    let out2 := pyStrip (out ++ " " ++ s)
    if word_target ≤ (pySplitWs out2).length then out2
    else buildExcerptAux word_target rest out2

/-- `generate_focus_text` (`key4ce/content/focus.py`): random choice and
shuffle are abstracted by the `rand` index stream and the `shuffle`
permutation. -/
def generate_focus_text (weak problem : List String) (word_target : ℕ)
    (rand : ℕ → ℕ) (shuffle : List String → List String) : String :=
  if weak = [] ∧ problem = [] then
    pyJoinWords ((pySplitWs (buildExcerptAux word_target (shuffle SENTENCES) "")).take
      word_target)
  else
    pyJoinWords ((shuffle (selectedWords weak problem word_target rand)).take word_target)

end Focus

namespace Db

/-- A JSON value as written by `json.dumps` and read back by `json.loads` for
the TEXT columns of `key4ce/data/db.py`. -/
inductive Json where
  | str (s : String)
  | int (n : ℤ)
  | arr (elems : List Json)
  | obj (fields : List (String × Json))

/-- One `{expected, got}` object of the `errors` blob. -/
structure ErrorPair where
  expected : String
  got : String
deriving DecidableEq

/-- `json.dumps(errors)` for a list of `{expected, got}` dicts. -/
def dumpsErrors (errors : List ErrorPair) : Json :=
  .arr (errors.map fun e => .obj [("expected", .str e.expected), ("got", .str e.got)])

/-- `json.dumps(timings)` for a list of integers. -/
def dumpsTimings (timings : List ℤ) : Json :=
  .arr (timings.map Json.int)

/-- Parse one `{expected, got}` object back. -/
def loadsErrorsElem : Json → Option ErrorPair
  | .obj [("expected", .str e), ("got", .str g)] => some { expected := e, got := g }
  | _ => none

/-- Parse a list of `{expected, got}` objects back. -/
def loadsErrorsList : List Json → Option (List ErrorPair)
  | [] => some []
  | j :: rest => do
    let e ← loadsErrorsElem j
    let es ← loadsErrorsList rest
    pure (e :: es)

/-- `json.loads` of the `errors` column into its `list[dict]` shape. -/
def loadsErrors : Json → Option (List ErrorPair)
  | .arr l => loadsErrorsList l
  | _ => none

/-- Parse a list of integers back. -/
def loadsTimingsList : List Json → Option (List ℤ)
  | [] => some []
  | .int n :: rest => do
    let ns ← loadsTimingsList rest
    pure (n :: ns)
  | _ => none

/-- `json.loads` of the `timings` column into its `list[int]` shape. -/
def loadsTimings : Json → Option (List ℤ)
  | .arr l => loadsTimingsList l
  | _ => none

/-- A stored row of the `sessions` table (`id` is the autoincrement key; the
`errors` and `timings` TEXT columns hold the dumped JSON). -/
structure SessionRow where
  id : Nat
  ts : String
  source : String
  wpm : ℚ
  accuracy : ℚ
  duration : ℚ
  chars_typed : Nat
  errors : Json
  timings : Json

/-- `Database.save_session`: round the three reals to 2 decimals, dump the two
JSON blobs (`timings or []` maps `None` to the empty list), insert the row and
return the new autoincrement id. -/
def save_session (db : List SessionRow) (nowIso source : String)
    (wpm accuracy duration : ℚ) (chars_typed : Nat)
    (errors : List ErrorPair) (timings : Option (List ℤ)) :
    List SessionRow × Nat :=
  let row : SessionRow :=
    { id := db.length + 1
      ts := nowIso
      source := source
      wpm := round2 wpm
      accuracy := round2 accuracy
      duration := round2 duration
      chars_typed := chars_typed
      errors := dumpsErrors errors
      timings := dumpsTimings (timings.getD []) }
  (db ++ [row], db.length + 1)

/-- The in-memory `SessionRecord` dataclass. -/
structure SessionRecord where
  id : Nat
  ts : String
  source : String
  wpm : ℚ
  accuracy : ℚ
  duration : ℚ
  chars_typed : Nat
  errors : List ErrorPair
  timings : List ℤ
deriving DecidableEq

/-- `Database._row_to_record`: read the columns back, parsing the JSON blobs
into their typed shapes (rows written by `save_session` always carry a
`timings` column, so the pre-migration default-`'[]'` branch is not taken). -/
def row_to_record (row : SessionRow) : Option SessionRecord := do
  let errors ← loadsErrors row.errors
  let timings ← loadsTimings row.timings
  pure { id := row.id, ts := row.ts, source := row.source, wpm := row.wpm,
         accuracy := row.accuracy, duration := row.duration,
         chars_typed := row.chars_typed, errors := errors, timings := timings }

end Db

namespace Loader

/-- Python truthiness for a parsed JSON value (`if not data`).  Booleans, null
and floats do not occur in the shapes the loader inspects. -/
def pyTruthy : Db.Json → Bool
  | .str s => !(s == "")
  | .int n => !(n == 0)
  | .arr l => !l.isEmpty
  | .obj l => !l.isEmpty

/-- `isinstance(data, dict)`. -/
def isDict : Db.Json → Bool
  | .obj _ => true
  | _ => false

/-- First-match association lookup of a JSON object field. -/
def lookupField : List (String × Db.Json) → String → Option Db.Json
  | [], _ => none
  | (k, v) :: rest, key => if k == key then some v else lookupField rest key

/-- `item.get(key, "")` for the string-valued API fields (`extract`,
`content`, `author`); a non-string value would raise a TypeError in Python and
is outside the API contract, modelled here as the `""` default. -/
def getStrField (j : Db.Json) (key : String) : String :=
  match j with
  | .obj fs =>
    match lookupField fs key with
    | some (.str s) => s
    | _ => ""
  | _ => ""

/-- The byte filter of `text.encode("ascii", errors="ignore")`. -/
def isAsciiChar (c : Char) : Bool :=
  decide (c.toNat < 128)

/-- `re.sub(r"\s+", " ", text)`: collapse whitespace runs to a single space. -/
def collapseWsAux : List Char → Bool → List Char
  | [], _ => []
  | c :: r, prevSpace =>
    if pyIsSpace c then
      if prevSpace then collapseWsAux r true else ' ' :: collapseWsAux r true
    else c :: collapseWsAux r false

/-- The regex class `\w` over ASCII text. -/
def isWordChar (c : Char) : Bool :=
  c.isAlphanum || c == '_'

/-- Match the tail of the citation regex `\[\w+\s*\d*\]` right after an opening
bracket; returns the remainder after `]` on success. -/
def tryCite (l : List Char) : Option (List Char) :=
  if l.takeWhile isWordChar = [] then none
  else
    match ((l.dropWhile isWordChar).dropWhile pyIsSpace).dropWhile Char.isDigit with
    | ']' :: rest => some rest
    | _ => none

/-- `re.sub(r"\[\w+\s*\d*\]", "", text)`: left-to-right, non-overlapping
removal of citation markers (the fuel starts at the text length and never runs
out before the scan ends). -/
def removeCites : Nat → List Char → List Char
  | 0, _ => []
  | _ + 1, [] => []
  | fuel + 1, c :: rest =>
    if c == '[' then
      match tryCite rest with
      | some rest2 => removeCites fuel rest2
      | none => '[' :: removeCites fuel rest
    else c :: removeCites fuel rest

/-- `_clean`: drop non-ASCII, collapse whitespace runs, strip, lower-case,
remove citation markers, strip again. -/
def cleanChars (l : List Char) : List Char :=
  let t1 := l.filter isAsciiChar
  let t2 := (stripWsChars (collapseWsAux t1 false)).map Char.toLower
  stripWsChars (removeCites t2.length t2)

/-- `_clean` at the string level. -/
def pyClean (s : String) : String :=
  String.mk (cleanChars s.toList)

/-- The cached-return test: `if use_cache: cached = _cache_get(...); if cached:
return cached` (an empty cached string is falsy and ignored). -/
def cacheHit (use_cache : Bool) (cache : Option String) : Option String :=
  if use_cache then
    match cache with
    | some s => if s == "" then none else some s
    | none => none
  else none

/-- The wikipedia post-processing: clean, split, truncate to 200 words, join. -/
def wikiProcessed (extract : String) : String :=
  let words := pySplitWs (pyClean extract)
  let words := if 200 < words.length then words.take 200 else words
  pyJoinWords words

/-- `fetch_wikipedia` over an explicit cache value and network outcome
(`net = none` models any `_fetch_json` failure: timeout, HTTP error, non-JSON
body).  Returns the fetch result and the updated cache value. -/
def fetch_wikipedia (use_cache : Bool) (cache : Option String)
    (net : Option Db.Json) : Option String × Option String :=
  match cacheHit use_cache cache with
  | some s => (some s, cache)
  | none =>
    match net with
    | none => (none, cache)
    | some data =>
      if !(pyTruthy data) || !(isDict data) then (none, cache)
      else if (getStrField data "extract").length < 40 then (none, cache)
      else if (wikiProcessed (getStrField data "extract")).length < 40 then (none, cache)
      else (some (wikiProcessed (getStrField data "extract")),
            some (wikiProcessed (getStrField data "extract")))

/-- `fetch_quote` over an explicit cache value and network outcome. -/
def fetch_quote (use_cache : Bool) (cache : Option String)
    (net : Option Db.Json) : Option String × Option String :=
  match cacheHit use_cache cache with
  | some s => (some s, cache)
  | none =>
    match net with
    | none => (none, cache)
    | some data =>
      if !(pyTruthy data) then (none, cache)
      else
        match
          (match data with
           | .arr (j :: _) => some j
           | .obj fs => some (Db.Json.obj fs)
           | _ => none) with
        | none => (none, cache)
        | some item =>
          if getStrField item "content" == "" then (none, cache)
          else if (pyClean (getStrField item "content" ++ " — " ++
              getStrField item "author")).length < 20 then (none, cache)
          else (some (pyClean (getStrField item "content" ++ " — " ++
                  getStrField item "author")),
                some (pyClean (getStrField item "content" ++ " — " ++
                  getStrField item "author")))

/-- A wikipedia result meeting its contract: at least 40 characters and at
most 200 space-separated words. -/
def ValidWikiText (t : String) : Prop :=
  40 ≤ t.length ∧ (pySplitWs t).length ≤ 200

/-- A quote result meeting its contract: at least 20 characters. -/
def ValidQuoteText (t : String) : Prop :=
  20 ≤ t.length

end Loader

end Key4ce

namespace Key4ce

namespace Engine

lemma processKey_text (s : TypingState) (k : Key) (now : ℚ) :
    ((processKey s k now).1).text = s.text := by
  cases k <;>
    simp only [processKey, handleBackspace, handleCorrect, handleIncorrect] <;>
    split_ifs <;> rfl

lemma processKey_position_le (s : TypingState) (k : Key) (now : ℚ)
    (h : s.position ≤ s.text.length) :
    ((processKey s k now).1).position ≤ s.text.length := by
  cases k with
  | backspace =>
    simp only [processKey, handleBackspace]
    split_ifs <;> (try simp) <;> omega
  | char c =>
    simp only [processKey, handleCorrect, handleIncorrect, isComplete]
    split_ifs with h0 h1 h2 <;> simp_all <;> omega

lemma foldl_stepEngine_invariant (inputs : List (Key × ℚ)) (s : TypingState)
    (h : s.position ≤ s.text.length) :
    (inputs.foldl stepEngine s).position ≤ (inputs.foldl stepEngine s).text.length ∧
    (inputs.foldl stepEngine s).text = s.text := by
  induction inputs generalizing s with
  | nil => exact ⟨h, rfl⟩
  | cons kt rest ih =>
    have htext := processKey_text s kt.1 kt.2
    have hpos := processKey_position_le s kt.1 kt.2 h
    have := ih (stepEngine s kt) (by rw [stepEngine, htext]; exact hpos)
    simp only [List.foldl_cons]
    exact ⟨this.1, by rw [this.2, stepEngine, htext]⟩

/-- C2: for every sequence of character and backspace inputs, the cursor
position never exceeds the length of the target text, and the engine is
complete exactly when the position equals the target length. -/
theorem engine_position_bounded_and_complete_iff
    (text : List Char) (inputs : List (Key × ℚ)) :
    (runEngine text inputs).position ≤ text.length ∧
    (isComplete (runEngine text inputs) = true ↔
      (runEngine text inputs).position = text.length) := by
  have h := foldl_stepEngine_invariant inputs (initState text) (by simp [initState])
  rw [runEngine]
  have htext : (inputs.foldl stepEngine (initState text)).text = text := by
    simpa [initState] using h.2
  have hle : (inputs.foldl stepEngine (initState text)).position ≤ text.length := by
    have h1 := h.1
    rw [htext] at h1
    exact h1
  refine ⟨hle, ?_⟩
  rw [isComplete, htext]
  constructor
  · intro hc
    have := of_decide_eq_true hc
    omega
  · intro hc
    exact decide_eq_true_eq.mpr (by omega)

/-- C1 (code-bug evidence): on target `"ab"`, the wrong key `'x'` is recorded as
an incorrect keystroke with expected `'a'`, but the cursor ADVANCES to 1 –
`_handle_incorrect` increments `position`, contradicting the claim (and the
repository's own test `test_incorrect_keystroke`, which asserts position 0). -/
theorem wrong_key_advances_position :
    stateAfterWrongKey.position = 1 ∧
    stateAfterWrongKey.errors = 1 ∧
    stateAfterWrongKey.keystrokes.map Keystroke.is_correct = [false] ∧
    stateAfterWrongKey.keystrokes.map Keystroke.expected = [some 'a'] ∧
    stateAfterWrongKey.keystrokes.map Keystroke.position = [0] := by
  decide

/-- C9: the `correct` and `errors` counters never decrease under any key, and a
backspace keeps both counters (hence the accuracy) unchanged while erasing the
error highlight at the position stepped over. -/
theorem counters_monotone_and_backspace_keeps_errors :
    (∀ (s : TypingState) (k : Key) (now : ℚ),
        s.correct ≤ ((processKey s k now).1).correct ∧
        s.errors ≤ ((processKey s k now).1).errors) ∧
    (∀ (s : TypingState) (now : ℚ),
        ((processKey s .backspace now).1).errors = s.errors ∧
        ((processKey s .backspace now).1).correct = s.correct ∧
        accuracy ((processKey s .backspace now).1) = accuracy s ∧
        (0 < s.position →
          ((processKey s .backspace now).1).error_positions =
            s.error_positions.erase (s.position - 1))) := by
  constructor
  · intro s k now
    cases k <;>
      simp only [processKey, handleBackspace, handleCorrect, handleIncorrect] <;>
      split_ifs <;> simp
  · intro s now
    have herr : ((processKey s .backspace now).1).errors = s.errors := by
      simp only [processKey, handleBackspace]
      split_ifs <;> rfl
    have hcor : ((processKey s .backspace now).1).correct = s.correct := by
      simp only [processKey, handleBackspace]
      split_ifs <;> rfl
    refine ⟨herr, hcor, by rw [accuracy, accuracy, herr, hcor], ?_⟩
    intro hpos
    simp only [processKey, handleBackspace]
    split_ifs with h1 h2 h3 <;> simp_all

/-- Witness for C9 at a concrete state: backspacing over the mistyped slot 0
erases its highlight but keeps the error counter at 1. -/
theorem counters_monotone_witness :
    ((processKey midSessionState .backspace 0).1).errors = midSessionState.errors ∧
    ((processKey midSessionState .backspace 0).1).error_positions =
      midSessionState.error_positions.erase 0 := by
  refine ⟨(counters_monotone_and_backspace_keeps_errors.2 midSessionState 0).1, ?_⟩
  have h := (counters_monotone_and_backspace_keeps_errors.2 midSessionState 0).2.2.2
    (by decide)
  simpa using h

/-- C10: the very first `process_key` call stamps `start_time = now` and marks
the session started, whatever the key is (backspace included) and even when the
text is already complete. -/
theorem first_key_stamps_start_time
    (s : TypingState) (k : Key) (now : ℚ) (h : s.start_time = none) :
    ((processKey s k now).1).start_time = some now ∧
    isStarted ((processKey s k now).1) = true := by
  have hnone : s.start_time.isNone = true := by rw [h]; rfl
  suffices hst : ((processKey s k now).1).start_time = some now by
    exact ⟨hst, by rw [isStarted, hst]; rfl⟩
  cases k <;>
    simp only [processKey, hnone, if_pos, handleBackspace, handleCorrect,
      handleIncorrect] <;>
    split_ifs <;> rfl

/-- Witness for C10: a lone backspace on a fresh engine starts the clock. -/
theorem first_key_stamps_start_time_witness :
    ((processKey (initState ['a', 'b']) .backspace 7).1).start_time = some 7 ∧
    isStarted ((processKey (initState ['a', 'b']) .backspace 7).1) = true :=
  first_key_stamps_start_time (initState ['a', 'b']) .backspace 7 rfl

end Engine

end Key4ce

namespace Key4ce

lemma foldl_countTrue (p : α → Bool) (l : List α) (n : Nat) :
    l.foldl (fun acc x => if p x then acc + 1 else acc) n = n + (l.filter p).length := by
  induction l generalizing n with
  | nil => simp
  | cons a l ih =>
    by_cases h : p a <;> simp [h, ih] <;> omega

lemma countTrue_eq_length_filter (p : α → Bool) (l : List α) :
    countTrue p l = (l.filter p).length := by
  simpa using foldl_countTrue p l 0

lemma length_filter_add (l : List α) (p q r : α → Bool)
    (hsplit : ∀ a ∈ l, r a = (p a || q a))
    (hdisj : ∀ a ∈ l, ¬(p a = true ∧ q a = true)) :
    (l.filter r).length = (l.filter p).length + (l.filter q).length := by
  induction l with
  | nil => simp
  | cons a l ih =>
    have ha := hsplit a (List.mem_cons_self a l)
    have hd := hdisj a (List.mem_cons_self a l)
    have ihl := ih (fun x hx => hsplit x (List.mem_cons_of_mem a hx))
      (fun x hx => hdisj x (List.mem_cons_of_mem a hx))
    cases hp : p a <;> cases hq : q a <;>
      simp [List.filter_cons, ha, hp, hq, ihl] <;> simp_all <;> omega

namespace Recorder

/-- C5: `snapshot_wpm` counts the correct keystrokes in the trailing window,
clamps the window to the elapsed time, returns 0 below half a second of
effective window and the net-WPM formula otherwise. -/
theorem snapshot_wpm_spec (tl : KeystrokeTimeline) (now window_sec : ℚ) :
    snapshot_wpm tl now window_sec =
      if min (now - tl.start_time) window_sec < 1/2 then 0
      else
        (((tl.keystrokes.filter fun k =>
            k.is_correct && decide (now - window_sec ≤ k.timestamp)).length : ℚ) / 5) /
          (min (now - tl.start_time) window_sec / 60) := by
  rw [snapshot_wpm, countTrue_eq_length_filter]

end Recorder

end Key4ce

namespace Key4ce

lemma interval_split (s w ts : ℚ) (hw : 0 < w) (n : ℕ) :
    (s ≤ ts ∧ ts < s + ((n : ℚ) + 1) * w) ↔
      ((s ≤ ts ∧ ts < s + (n : ℚ) * w) ∨
        (s + (n : ℚ) * w ≤ ts ∧ ts < s + (n : ℚ) * w + w)) := by
  have hrw : s + ((n : ℚ) + 1) * w = s + (n : ℚ) * w + w := by ring
  have hnn : (0 : ℚ) ≤ (n : ℚ) * w := by positivity
  constructor
  · rintro ⟨h1, h2⟩
    rcases lt_or_le ts (s + (n : ℚ) * w) with h3 | h3
    · exact Or.inl ⟨h1, h3⟩
    · exact Or.inr ⟨h3, by rw [← hrw]; exact h2⟩
  · rintro (⟨h1, h2⟩ | ⟨h1, h2⟩)
    · exact ⟨h1, h2.trans_le (by linarith)⟩
    · exact ⟨by linarith, by rw [hrw]; exact h2⟩

namespace Recorder

lemma sum_bucket_like_counts (l : List Keystroke) (s w : ℚ) (hw : 0 < w) (n : ℕ) :
    ((List.range n).map (fun (b : ℕ) =>
        countTrue (fun k => k.is_correct && decide (s + (b : ℚ) * w ≤ k.timestamp) &&
          decide (k.timestamp < s + (b : ℚ) * w + w)) l)).sum =
      (l.filter (fun k => k.is_correct && decide (s ≤ k.timestamp) &&
        decide (k.timestamp < s + (n : ℚ) * w))).length := by
  induction n with
  | zero =>
    simp only [List.range_zero, List.map_nil, List.sum_nil, Nat.cast_zero, zero_mul,
      add_zero]
    symm
    rw [List.length_eq_zero]
    refine List.filter_eq_nil_iff.mpr fun k _ hk => ?_
    simp only [Bool.and_eq_true, decide_eq_true_eq] at hk
    obtain ⟨⟨_, h1⟩, h2⟩ := hk
    linarith
  | succ n ih =>
    rw [List.range_succ, List.map_append, List.sum_append]
    simp only [List.map_cons, List.map_nil, List.sum_cons, List.sum_nil, add_zero]
    rw [ih, countTrue_eq_length_filter]
    have hsplit : ∀ k ∈ l,
        (k.is_correct && decide (s ≤ k.timestamp) &&
          decide (k.timestamp < s + ((n + 1 : ℕ) : ℚ) * w)) =
        ((k.is_correct && decide (s ≤ k.timestamp) &&
            decide (k.timestamp < s + (n : ℚ) * w)) ||
          (k.is_correct && decide (s + (n : ℚ) * w ≤ k.timestamp) &&
            decide (k.timestamp < s + (n : ℚ) * w + w))) := by
      intro k _
      rcases Bool.dichotomy k.is_correct with hc | hc
      · simp [hc]
      · simp only [hc, Bool.true_and]
        refine Bool.eq_iff_iff.mpr ?_
        simp only [Bool.and_eq_true, Bool.or_eq_true, decide_eq_true_eq]
        have h := interval_split s w k.timestamp hw n
        push_cast
        exact h
    have hdisj : ∀ k ∈ l,
        ¬((k.is_correct && decide (s ≤ k.timestamp) &&
            decide (k.timestamp < s + (n : ℚ) * w)) = true ∧
          (k.is_correct && decide (s + (n : ℚ) * w ≤ k.timestamp) &&
            decide (k.timestamp < s + (n : ℚ) * w + w)) = true) := by
      intro k _ hcontra
      have h1 := hcontra.1
      have h2 := hcontra.2
      simp only [Bool.and_eq_true, decide_eq_true_eq] at h1 h2
      have h3 := h1.2
      have h4 := h2.1.2
      linarith
    rw [length_filter_add l _ _ _ hsplit hdisj]

lemma ratFloor_eq_floor (q : ℚ) : Rat.floor q = ⌊q⌋ := by
  rw [Rat.floor_def]
  unfold Rat.floor
  split_ifs with h
  · rw [h]
    simp
  · rfl

lemma max_one_ratTrunc_toNat (q : ℚ) :
    ((max 1 (ratTrunc q).toNat : ℕ) : ℤ) = max 1 ⌊q⌋ := by
  rcases le_or_lt 0 q with h | h
  · have h1 : ratTrunc q = ⌊q⌋ := by
      rw [ratTrunc, if_neg (not_lt.mpr h), ratFloor_eq_floor]
    have h2 : 0 ≤ ⌊q⌋ := Int.floor_nonneg.mpr h
    rw [h1]
    simp [Nat.cast_max, Int.toNat_of_nonneg h2]
  · have h1 : ratTrunc q = -⌊-q⌋ := by
      rw [ratTrunc, if_pos h, ratFloor_eq_floor]
    have h2 : 0 ≤ ⌊-q⌋ := Int.floor_nonneg.mpr (by linarith)
    have h3 : (ratTrunc q).toNat = 0 := by
      rw [h1]
      exact Int.toNat_of_nonpos (by omega)
    have h4 : ⌊q⌋ ≤ 0 := by
      have := Int.floor_le_floor h.le
      simpa using this
    have h5 : max 1 ⌊q⌋ = 1 := max_eq_left (by omega)
    rw [h3, h5]
    simp

/-- C4 (amended): when the timeline is non-empty, `wpm_buckets` emits one value
per bucket for `n = max(1, ⌊elapsed / bucket_sec⌋)` buckets that tile
`[start_time, start_time + n·bucket_sec)`, and the per-bucket correct counts
sum to the number of correct keystrokes whose timestamp lies in that covered
interval (keystrokes beyond it are not counted). -/
theorem wpm_buckets_partition_and_sum (tl : KeystrokeTimeline) (now bucket_sec : ℚ)
    (hbs : 0 < bucket_sec) (hne : tl.keystrokes ≠ []) :
    wpm_buckets tl now bucket_sec =
      (bucketCounts tl now bucket_sec).map
        (fun (c : ℕ) => round1 (((c : ℚ) / 5) / (bucket_sec / 60))) ∧
    (wpm_buckets tl now bucket_sec).length = nBuckets tl now bucket_sec ∧
    ((nBuckets tl now bucket_sec : ℤ) = max 1 ⌊(now - tl.start_time) / bucket_sec⌋) ∧
    (bucketCounts tl now bucket_sec).sum =
      (tl.keystrokes.filter fun k =>
        k.is_correct && decide (tl.start_time ≤ k.timestamp) &&
          decide (k.timestamp <
            tl.start_time + (nBuckets tl now bucket_sec : ℚ) * bucket_sec)).length := by
  refine ⟨?_, ?_, ?_, ?_⟩
  · simp only [wpm_buckets, bucketCounts, if_neg hne, List.map_map]
    rfl
  · rw [wpm_buckets, if_neg hne]
    simp
  · rw [nBuckets, elapsed_seconds]
    exact max_one_ratTrunc_toNat _
  · rw [bucketCounts]
    have h := sum_bucket_like_counts tl.keystrokes tl.start_time bucket_sec hbs
      (nBuckets tl now bucket_sec)
    simpa [bucketCount] using h

/-- C4 counterexample: start 0, one correct keystroke at t = 6, now = 7,
5-second buckets.  The single bucket covers `[0, 5)`, so the per-bucket counts
sum to 0 while the timeline holds 1 correct keystroke: the claimed equality
`sum(bucket_correct_counts) == |correct keystrokes|` fails. -/
theorem wpm_buckets_sum_undercounts :
    (bucketCounts cexTimeline 7 5).sum = 0 ∧
    countTrue (fun k => k.is_correct) cexTimeline.keystrokes = 1 ∧
    ¬((bucketCounts cexTimeline 7 5).sum =
        countTrue (fun k => k.is_correct) cexTimeline.keystrokes) := by
  have hfl : ⌊((7 : ℚ) - cexTimeline.start_time) / 5⌋ = 1 := by
    norm_num [cexTimeline]
  have hnb : nBuckets cexTimeline 7 5 = 1 := by
    rw [nBuckets, elapsed_seconds, ratTrunc,
      if_neg (by norm_num [cexTimeline] :
        ¬(((7 : ℚ) - cexTimeline.start_time) / 5 < 0)),
      ratFloor_eq_floor, hfl]
    rfl
  have hcount : countTrue (fun k => k.is_correct) cexTimeline.keystrokes = 1 := by
    rfl
  have hbc : bucketCount cexTimeline 5 0 = 0 := by
    have hk : cexTimeline.keystrokes =
        [{ char := "a", expected := "a", timestamp := 6, is_correct := true,
           position := 0 }] := rfl
    have hs : cexTimeline.start_time = (0 : ℚ) := rfl
    simp only [bucketCount]
    rw [countTrue_eq_length_filter, hk, hs]
    simp only [List.filter_cons, List.filter_nil]
    norm_num
  have hsum : (bucketCounts cexTimeline 7 5).sum = 0 := by
    rw [bucketCounts, hnb]
    simp [List.range_succ, hbc]
  exact ⟨hsum, hcount, by rw [hsum, hcount]; exact Nat.zero_ne_one⟩

/-- Witness for C4 (amended) at the concrete timeline `cexTimeline`. -/
theorem wpm_buckets_partition_witness :
    ((nBuckets cexTimeline 7 5 : ℤ) = max 1 ⌊((7 : ℚ) - cexTimeline.start_time) / 5⌋) ∧
    (bucketCounts cexTimeline 7 5).sum =
      (cexTimeline.keystrokes.filter fun k =>
        k.is_correct && decide (cexTimeline.start_time ≤ k.timestamp) &&
          decide (k.timestamp <
            cexTimeline.start_time + (nBuckets cexTimeline 7 5 : ℚ) * 5)).length :=
  ⟨(wpm_buckets_partition_and_sum cexTimeline 7 5 (by norm_num) (by decide)).2.2.1,
   (wpm_buckets_partition_and_sum cexTimeline 7 5 (by norm_num) (by decide)).2.2.2⟩

end Recorder

end Key4ce

namespace Key4ce

lemma mem_insertLe (le : α → α → Bool) (a x : α) (l : List α) :
    x ∈ insertLe le a l ↔ x = a ∨ x ∈ l := by
  induction l with
  | nil => simp [insertLe]
  | cons b l ih =>
    simp only [insertLe]
    split_ifs with h
    · simp [List.mem_cons]
    · simp only [List.mem_cons, ih]
      tauto

lemma mem_sortLe (le : α → α → Bool) (x : α) (l : List α) :
    x ∈ sortLe le l ↔ x ∈ l := by
  induction l with
  | nil => simp [sortLe]
  | cons a l ih => simp [sortLe, mem_insertLe, ih]

lemma pairwise_insertLe (le : α → α → Bool)
    (htot : ∀ a b, le a b = true ∨ le b a = true)
    (htrans : ∀ a b c, le a b = true → le b c = true → le a c = true)
    (a : α) (l : List α) (hl : l.Pairwise (fun x y => le x y = true)) :
    (insertLe le a l).Pairwise (fun x y => le x y = true) := by
  induction l with
  | nil => simp [insertLe]
  | cons b l ih =>
    cases hl with
    | cons hb hl' =>
      simp only [insertLe]
      split_ifs with hab
      · refine List.Pairwise.cons ?_ (List.Pairwise.cons hb hl')
        intro y hy
        rcases List.mem_cons.mp hy with rfl | hy'
        · exact hab
        · exact htrans a b y hab (hb y hy')
      · refine List.Pairwise.cons ?_ (ih hl')
        intro y hy
        rcases (mem_insertLe le a y l).mp hy with h' | hy'
        · rw [h']
          rcases htot a b with h | h
          · exact absurd h hab
          · exact h
        · exact hb y hy'

lemma pairwise_sortLe (le : α → α → Bool)
    (htot : ∀ a b, le a b = true ∨ le b a = true)
    (htrans : ∀ a b c, le a b = true → le b c = true → le a c = true)
    (l : List α) : (sortLe le l).Pairwise (fun x y => le x y = true) := by
  induction l with
  | nil => simp [sortLe]
  | cons a l ih => exact pairwise_insertLe le htot htrans a _ ih

lemma sum_lt_mul_length (l : List ℚ) (c : ℚ) (hne : l ≠ [])
    (h : ∀ x ∈ l, x < c) : l.sum < c * l.length := by
  induction l with
  | nil => exact absurd rfl hne
  | cons a t ih =>
    rcases eq_or_ne t [] with rfl | hne'
    · simpa using h a (by simp)
    · have ht := ih hne' (fun x hx => h x (List.mem_cons_of_mem a hx))
      have ha := h a (List.mem_cons_self a t)
      simp only [List.sum_cons, List.length_cons]
      push_cast
      nlinarith [ht, ha]

lemma mean_pos_lt (l : List ℚ) (hne : l ≠ [])
    (h : ∀ x ∈ l, 0 < x ∧ x < 2000) : 0 < mean l ∧ mean l < 2000 := by
  rw [mean, if_neg hne]
  have hlen : 0 < (l.length : ℚ) := by
    have := List.length_pos.mpr hne
    exact_mod_cast this
  constructor
  · exact div_pos (List.sum_pos l (fun x hx => (h x hx).1) hne) hlen
  · rw [div_lt_iff hlen]
    exact sum_lt_mul_length l 2000 hne (fun x hx => (h x hx).2)

namespace Analyzer

lemma acceptedIntervals_bounds (tl : Recorder.KeystrokeTimeline) :
    ∀ x ∈ acceptedIntervals tl, 0 < x.2 ∧ x.2 < 2000 := by
  intro x hx
  simp only [acceptedIntervals, List.mem_filterMap] at hx
  obtain ⟨pc, _, hpc⟩ := hx
  by_cases h1 : pc.2.position = pc.1.position + 1
  · rw [if_pos h1] at hpc
    by_cases h2 : 0 < (pc.2.timestamp - pc.1.timestamp) * 1000 ∧
        (pc.2.timestamp - pc.1.timestamp) * 1000 < 2000
    · rw [if_pos h2] at hpc
      have hx2 := Option.some.inj hpc
      rw [← hx2]
      exact h2
    · rw [if_neg h2] at hpc
      exact absurd hpc (by simp)
  · rw [if_neg h1] at hpc
    exact absurd hpc (by simp)

lemma digraphSamples_bounds (tl : Recorder.KeystrokeTimeline) (d : String) :
    ∀ x ∈ digraphSamples tl d, 0 < x ∧ x < 2000 := by
  intro x hx
  simp only [digraphSamples, List.mem_map, List.mem_filter] at hx
  obtain ⟨p, ⟨hp, _⟩, rfl⟩ := hx
  exact acceptedIntervals_bounds tl p hp

/-- C3 (spec-modelled): every slow-digraph entry has an average interval
strictly between 0 and 2000 ms, is the mean of at least 2 accepted samples
(which, by construction of `acceptedIntervals`, come only from consecutive
correct pairs with position gap exactly 1), and the list is sorted by
descending deviation, with at most 5 entries. -/
theorem slow_digraphs_bounded_sorted (tl : Recorder.KeystrokeTimeline) :
    (∀ e ∈ slow_digraphs tl,
        (0 < e.avg_ms ∧ e.avg_ms < 2000) ∧ 2 ≤ e.count ∧
        e.avg_ms = mean (digraphSamples tl e.digraph) ∧
        e.deviation_ms = mean (digraphSamples tl e.digraph) - overallAvg tl ∧
        e.count = (digraphSamples tl e.digraph).length) ∧
    (slow_digraphs tl).Pairwise (fun a b => b.deviation_ms ≤ a.deviation_ms) ∧
    (slow_digraphs tl).length ≤ 5 := by
  refine ⟨?_, ?_, ?_⟩
  · intro e he
    have he1 : e ∈ sortLe (fun a b => decide (b.deviation_ms ≤ a.deviation_ms))
        (digraphGroups tl) := List.take_subset 5 _ he
    have he2 : e ∈ digraphGroups tl := (mem_sortLe _ e _).mp he1
    simp only [digraphGroups, List.mem_filterMap] at he2
    obtain ⟨d, _, hde⟩ := he2
    by_cases h2 : 2 ≤ (digraphSamples tl d).length
    · rw [if_pos h2] at hde
      have he3 := Option.some.inj hde
      subst he3
      have hne : digraphSamples tl d ≠ [] := by
        intro hnil
        rw [hnil] at h2
        simp at h2
      have hb := mean_pos_lt (digraphSamples tl d) hne (digraphSamples_bounds tl d)
      exact ⟨hb, h2, rfl, rfl, rfl⟩
    · rw [if_neg h2] at hde
      exact absurd hde (by simp)
  · have htot : ∀ a b : DigraphStat,
        (decide (b.deviation_ms ≤ a.deviation_ms)) = true ∨
          (decide (a.deviation_ms ≤ b.deviation_ms)) = true := by
      intro a b
      rcases le_total b.deviation_ms a.deviation_ms with h | h
      · exact Or.inl (decide_eq_true h)
      · exact Or.inr (decide_eq_true h)
    have htrans : ∀ a b c : DigraphStat,
        decide (b.deviation_ms ≤ a.deviation_ms) = true →
        decide (c.deviation_ms ≤ b.deviation_ms) = true →
        decide (c.deviation_ms ≤ a.deviation_ms) = true := by
      intro a b c h1 h2
      exact decide_eq_true (le_trans (of_decide_eq_true h2) (of_decide_eq_true h1))
    have hp := pairwise_sortLe (fun a b => decide (b.deviation_ms ≤ a.deviation_ms))
      htot htrans (digraphGroups tl)
    have hp2 := hp.sublist (List.take_sublist 5 _)
    exact hp2.imp (fun h => of_decide_eq_true h)
  · exact List.length_take_le 5 _

end Analyzer

end Key4ce

namespace Key4ce

namespace Db

lemma loadsErrorsList_dumps (es : List ErrorPair) :
    loadsErrorsList (es.map fun e =>
      Json.obj [("expected", Json.str e.expected), ("got", Json.str e.got)]) = some es := by
  induction es with
  | nil => rfl
  | cons e es ih => simp [loadsErrorsList, loadsErrorsElem, ih]

lemma loadsErrors_dumpsErrors (es : List ErrorPair) :
    loadsErrors (dumpsErrors es) = some es := by
  simp [loadsErrors, dumpsErrors, loadsErrorsList_dumps]

lemma loadsTimingsList_dumps (ns : List ℤ) :
    loadsTimingsList (ns.map Json.int) = some ns := by
  induction ns with
  | nil => rfl
  | cons n ns ih => simp [loadsTimingsList, ih]

lemma loadsTimings_dumpsTimings (ns : List ℤ) :
    loadsTimings (dumpsTimings ns) = some ns := by
  simp [loadsTimings, dumpsTimings, loadsTimingsList_dumps]

/-- C7: saving a session appends exactly one row whose id is the returned id,
and reading that row back yields the saved tuple with the three reals rounded
to 2 decimals and the errors and timings lists unchanged through their JSON
encoding. -/
theorem save_session_roundtrip (db : List SessionRow) (nowIso source : String)
    (wpm accuracy duration : ℚ) (chars_typed : Nat)
    (errors : List ErrorPair) (timings : List ℤ) :
    ∃ row : SessionRow,
      (save_session db nowIso source wpm accuracy duration chars_typed errors
          (some timings)).1 = db ++ [row] ∧
      row.id = (save_session db nowIso source wpm accuracy duration chars_typed errors
          (some timings)).2 ∧
      row_to_record row =
        some { id := row.id, ts := nowIso, source := source,
               wpm := round2 wpm, accuracy := round2 accuracy,
               duration := round2 duration, chars_typed := chars_typed,
               errors := errors, timings := timings } := by
  refine ⟨_, rfl, rfl, ?_⟩
  simp [row_to_record, save_session, loadsErrors_dumpsErrors, loadsTimings_dumpsTimings]

end Db

end Key4ce

namespace Key4ce

lemma splitWsAux_noSpace (w : List Char) (rest : List Char)
    (hw : ∀ c ∈ w, pyIsSpace c = false) :
    ∀ acc, splitWsAux (w ++ rest) acc = splitWsAux rest (w.reverse ++ acc) := by
  induction w with
  | nil => intro acc; simp
  | cons c w' ihw =>
    intro acc
    have hc := hw c (by simp)
    have hw' : ∀ x ∈ w', pyIsSpace x = false :=
      fun x hx => hw x (List.mem_cons_of_mem c hx)
    simp only [List.cons_append, splitWsAux, hc, Bool.false_eq_true, if_false,
      List.append_eq, ihw hw' (c :: acc), List.reverse_cons, List.append_assoc,
      List.singleton_append, List.nil_append]

lemma splitWsAux_space (rest acc : List Char) (hacc : acc ≠ []) :
    splitWsAux (' ' :: rest) acc = acc.reverse :: splitWsAux rest [] := by
  have hsp : pyIsSpace ' ' = true := by decide
  simp only [splitWsAux, hsp, if_true, if_neg hacc]

lemma splitWs_joinSpace :
    ∀ ws : List (List Char),
      (∀ w ∈ ws, w ≠ [] ∧ ∀ c ∈ w, pyIsSpace c = false) →
      splitWsAux (joinSpace ws) [] = ws := by
  intro ws
  induction ws with
  | nil => intro _; rfl
  | cons w ws ih =>
    intro h
    have hw := h w (by simp)
    cases ws with
    | nil =>
      show splitWsAux w [] = [w]
      have h1 := splitWsAux_noSpace w [] hw.2 []
      rw [List.append_nil, List.append_nil] at h1
      rw [h1]
      simp only [splitWsAux]
      rw [if_neg (by simpa using hw.1)]
      simp
    | cons w2 ws2 =>
      have hrest : ∀ u ∈ w2 :: ws2, u ≠ [] ∧ ∀ c ∈ u, pyIsSpace c = false :=
        fun u hu => h u (List.mem_cons_of_mem w hu)
      show splitWsAux (w ++ ' ' :: joinSpace (w2 :: ws2)) [] = w :: w2 :: ws2
      rw [splitWsAux_noSpace w (' ' :: joinSpace (w2 :: ws2)) hw.2 []]
      rw [List.append_nil]
      rw [splitWsAux_space _ _ (by simpa using hw.1)]
      rw [List.reverse_reverse, ih hrest]

lemma splitWsAux_tokens_wf :
    ∀ (l acc : List Char), (∀ c ∈ acc, pyIsSpace c = false) →
      ∀ w ∈ splitWsAux l acc, w ≠ [] ∧ ∀ c ∈ w, pyIsSpace c = false := by
  intro l
  induction l with
  | nil =>
    intro acc hacc w hw
    simp only [splitWsAux] at hw
    split_ifs at hw with h
    · simp at hw
    · simp only [List.mem_singleton] at hw
      subst hw
      exact ⟨by simpa using h, fun x hx => hacc x (List.mem_reverse.mp hx)⟩
  | cons c t ih =>
    intro acc hacc w hw
    simp only [splitWsAux] at hw
    split_ifs at hw with h1 h2
    · exact ih [] (by simp) w hw
    · rcases List.mem_cons.mp hw with rfl | hw'
      · exact ⟨by simpa using h2, fun x hx => hacc x (List.mem_reverse.mp hx)⟩
      · exact ih [] (by simp) w hw'
    · refine ih (c :: acc) ?_ w hw
      intro x hx
      rcases List.mem_cons.mp hx with rfl | hx'
      · simpa using h1
      · exact hacc x hx'

lemma pySplitWs_pyJoinWords (ws : List String)
    (h : ∀ w ∈ ws, w.toList ≠ [] ∧ ∀ c ∈ w.toList, pyIsSpace c = false) :
    pySplitWs (pyJoinWords ws) = ws := by
  have hcond : ∀ w ∈ ws.map String.toList, w ≠ [] ∧ ∀ c ∈ w, pyIsSpace c = false := by
    intro w hw
    simp only [List.mem_map] at hw
    obtain ⟨s, hs, rfl⟩ := hw
    exact h s hs
  show (splitWsAux (joinSpace (ws.map String.toList)) []).map (fun l => String.mk l)
      = ws
  rw [splitWs_joinSpace _ hcond, List.map_map]
  have hid : ((fun l => String.mk l) ∘ String.toList) = id := funext (fun s => rfl)
  rw [hid, List.map_id]

lemma foldl_mono_step (f : ℤ → α → ℤ) (hf : ∀ a x, a ≤ f a x)
    (l : List α) (a : ℤ) : a ≤ l.foldl f a := by
  induction l generalizing a with
  | nil => exact le_refl a
  | cons x t ih => exact le_trans (hf a x) (ih (f a x))

namespace Focus

lemma scoreWord_nonneg (w : String) (dgs pcs : List String) :
    0 ≤ scoreWord w dgs pcs := by
  simp only [scoreWord]
  refine le_trans ?_ (foldl_mono_step _ (fun a ch => ?_) pcs _)
  · refine foldl_mono_step _ (fun a dg => ?_) dgs 0
    split_ifs
    · linarith
    · exact le_refl a
  · have : (0 : ℤ) ≤ (countSub ch.toList (w.toList.map Char.toLower) : ℤ) :=
      Int.ofNat_nonneg _
    linarith

lemma mem_scoredWords (weak problem : List String) (x : String × ℤ)
    (hx : x ∈ scoredWords weak problem) :
    x.1 ∈ COMMON_WORDS ∧ x.2 = scoreWord x.1 weak problem := by
  rw [scoredWords] at hx
  have hx2 := (mem_sortLe _ x _).mp hx
  simp only [List.mem_map] at hx2
  obtain ⟨w, hw, rfl⟩ := hx2
  exact ⟨hw, rfl⟩

lemma common_words_wf :
    ∀ w ∈ COMMON_WORDS, w.toList ≠ [] ∧ ∀ c ∈ w.toList, pyIsSpace c = false := by
  decide

lemma effectiveHigh_ne (weak problem : List String) :
    effectiveHigh weak problem ≠ [] := by
  intro hempty
  rw [effectiveHigh] at hempty
  have hthe : ("the", scoreWord "the" weak problem) ∈ scoredWords weak problem := by
    rw [scoredWords]
    refine (mem_sortLe _ _ _).mpr ?_
    simp only [List.mem_map]
    exact ⟨"the", by decide, rfl⟩
  split_ifs at hempty with hh
  · -- high and filler both empty: "the" has score ≥ 0 but is in neither
    have hfil : ∀ x ∈ scoredWords weak problem, ¬(x.2 = 0) := by
      intro x hx hx0
      have : x.1 ∈ fillerPool weak problem := by
        rw [fillerPool]
        simp only [List.mem_map, List.mem_filter]
        exact ⟨x, ⟨hx, by simp [hx0]⟩, rfl⟩
      rw [hempty] at this
      simp at this
    have hhigh : ∀ x ∈ scoredWords weak problem, ¬(0 < x.2) := by
      intro x hx hx0
      have : x.1 ∈ highPool weak problem := by
        rw [highPool]
        simp only [List.mem_map, List.mem_filter]
        exact ⟨x, ⟨hx, by simp [hx0]⟩, rfl⟩
      rw [hh] at this
      simp at this
    have h1 := hfil _ hthe
    have h2 := hhigh _ hthe
    have h3 := scoreWord_nonneg "the" weak problem
    simp only at h1 h2
    omega
  · exact hh hempty

lemma pickList_length (pool : List String) (rand : ℕ → ℕ) (base n : ℕ) :
    (pickList pool rand base n).length = n := by
  simp [pickList]

lemma pickList_mem (pool : List String) (rand : ℕ → ℕ) (base n : ℕ)
    (hpool : pool ≠ []) : ∀ x ∈ pickList pool rand base n, x ∈ pool := by
  intro x hx
  simp only [pickList, List.mem_map, List.mem_range] at hx
  obtain ⟨i, _, rfl⟩ := hx
  have hlt : rand (base + i) % pool.length < pool.length :=
    Nat.mod_lt _ (List.length_pos.mpr hpool)
  rw [List.getD_eq_getElem pool "" hlt]
  exact List.getElem_mem hlt

lemma highPool_subset (weak problem : List String) :
    ∀ x ∈ highPool weak problem, x ∈ COMMON_WORDS := by
  intro x hx
  simp only [highPool, List.mem_map, List.mem_filter] at hx
  obtain ⟨p, ⟨hp, _⟩, rfl⟩ := hx
  exact (mem_scoredWords weak problem p hp).1

lemma fillerPool_subset (weak problem : List String) :
    ∀ x ∈ fillerPool weak problem, x ∈ COMMON_WORDS := by
  intro x hx
  simp only [fillerPool, List.mem_map, List.mem_filter] at hx
  obtain ⟨p, ⟨hp, _⟩, rfl⟩ := hx
  exact (mem_scoredWords weak problem p hp).1

lemma effectiveHigh_subset (weak problem : List String) :
    ∀ x ∈ effectiveHigh weak problem, x ∈ COMMON_WORDS := by
  intro x hx
  rw [effectiveHigh] at hx
  split_ifs at hx
  · exact fillerPool_subset weak problem x hx
  · exact highPool_subset weak problem x hx

lemma selectedWords_length (weak problem : List String) (wt : ℕ) (rand : ℕ → ℕ) :
    (selectedWords weak problem wt rand).length =
      nHighFor wt + (if fillerPool weak problem = [] then 0 else wt - nHighFor wt) := by
  rw [selectedWords, List.length_append, if_neg (effectiveHigh_ne weak problem)]
  rw [pickList_length]
  split_ifs with h
  · simp
  · rw [pickList_length]

lemma selectedWords_mem (weak problem : List String) (wt : ℕ) (rand : ℕ → ℕ) :
    ∀ x ∈ selectedWords weak problem wt rand, x ∈ COMMON_WORDS := by
  intro x hx
  rw [selectedWords, if_neg (effectiveHigh_ne weak problem)] at hx
  rcases List.mem_append.mp hx with h | h
  · exact effectiveHigh_subset weak problem x
      (pickList_mem _ _ _ _ (effectiveHigh_ne weak problem) x h)
  · split_ifs at h with hfp
    · simp at h
    · exact fillerPool_subset weak problem x (pickList_mem _ _ _ _ hfp x h)

/-- C6 (amended): with a non-empty `weak_digraphs` or `problem_chars` input the
generator draws `max(1, ⌊0.6·word_target⌋)` words from the positively-scored
pool (falling back to the filler pool when no word scores positive) plus
`word_target − max(1, ⌊0.6·word_target⌋)` filler words when the filler pool is
non-empty; the output has exactly `word_target` space-separated tokens whenever
the filler pool is non-empty, and `min(word_target, max(1, ⌊0.6·word_target⌋))`
tokens when every common word scores positive. -/
theorem generate_focus_text_token_counts (weak problem : List String)
    (word_target : ℕ) (rand : ℕ → ℕ) (shuffle : List String → List String)
    (hshuffle : ∀ l : List String, List.Perm (shuffle l) l)
    (hne : ¬(weak = [] ∧ problem = [])) :
    effectiveHigh weak problem ≠ [] ∧
    (selectedWords weak problem word_target rand).length =
      nHighFor word_target +
        (if fillerPool weak problem = [] then 0
         else word_target - nHighFor word_target) ∧
    (pySplitWs (generate_focus_text weak problem word_target rand shuffle)).length =
      min word_target (selectedWords weak problem word_target rand).length ∧
    (fillerPool weak problem ≠ [] →
      (pySplitWs (generate_focus_text weak problem word_target rand shuffle)).length =
        word_target) := by
  have heff := effectiveHigh_ne weak problem
  have hlen := selectedWords_length weak problem word_target rand
  have htok : (pySplitWs (generate_focus_text weak problem word_target rand
      shuffle)).length = min word_target
        (selectedWords weak problem word_target rand).length := by
    rw [generate_focus_text, if_neg hne]
    have hwf : ∀ w ∈ (shuffle (selectedWords weak problem word_target rand)).take
        word_target, w.toList ≠ [] ∧ ∀ c ∈ w.toList, pyIsSpace c = false := by
      intro w hw
      have h1 : w ∈ shuffle (selectedWords weak problem word_target rand) :=
        List.take_subset _ _ hw
      have h2 : w ∈ selectedWords weak problem word_target rand :=
        ((hshuffle _).mem_iff).mp h1
      exact common_words_wf w (selectedWords_mem weak problem word_target rand w h2)
    rw [pySplitWs_pyJoinWords _ hwf, List.length_take, (hshuffle _).length_eq]
  refine ⟨heff, hlen, htok, ?_⟩
  intro hfil
  rw [htok, hlen, if_neg hfil]
  omega

/-- C6 counterexample: the high-pool draw count is `max(1, ⌊0.6·wt⌋)`, not
`⌈0.6·wt⌉` (5 ≠ 6 at `wt = 9`); and when every common word scores positive
(problem chars covering a, e, i, o, u, y) the filler loop is skipped, so the
output has fewer than `word_target` tokens (1 token instead of 2). -/
theorem generate_focus_text_cex :
    nHighFor 9 ≠ (3 * 9 + 4) / 5 ∧
    (pySplitWs (generate_focus_text [] ["a", "e", "i", "o", "u", "y"] 2
        (fun _ => 0) id)).length ≠ 2 := by
  decide

/-- Witness for C6 (amended): weak digraph `"th"`, word target 3, identity
shuffle — the output has exactly 3 tokens. -/
theorem generate_focus_text_witness :
    (pySplitWs (generate_focus_text ["th"] [] 3 (fun _ => 0) id)).length = 3 := by
  have h := generate_focus_text_token_counts ["th"] [] 3 (fun _ => 0) id
    (fun l => List.Perm.refl l) (by simp)
  exact h.2.2.2 (by decide)

end Focus

end Key4ce

namespace Key4ce

lemma pySplitWs_tokens_wf (s : String) :
    ∀ w ∈ pySplitWs s, w.toList ≠ [] ∧ ∀ c ∈ w.toList, pyIsSpace c = false := by
  intro w hw
  simp only [pySplitWs, List.mem_map] at hw
  obtain ⟨lw, hlw, rfl⟩ := hw
  exact splitWsAux_tokens_wf s.toList [] (by simp) lw hlw

namespace Loader

lemma cacheHit_some (uc : Bool) (cache : Option String) (s : String)
    (h : cacheHit uc cache = some s) : cache = some s := by
  cases uc
  · simp [cacheHit] at h
  · cases cache with
    | none => simp [cacheHit] at h
    | some x =>
      simp only [cacheHit, if_true] at h
      by_cases hx : (x == "") = true
      · rw [if_pos hx] at h
        exact absurd h (by simp)
      · rw [if_neg hx] at h
        exact h

lemma wikiProcessed_tokens (extract : String) :
    (pySplitWs (wikiProcessed extract)).length ≤ 200 := by
  simp only [wikiProcessed]
  have hwf : ∀ w ∈ (if 200 < (pySplitWs (pyClean extract)).length then
      (pySplitWs (pyClean extract)).take 200 else pySplitWs (pyClean extract)),
      w.toList ≠ [] ∧ ∀ c ∈ w.toList, pyIsSpace c = false := by
    intro w hw
    have hmem : w ∈ pySplitWs (pyClean extract) := by
      split_ifs at hw
      · exact List.take_subset _ _ hw
      · exact hw
    exact pySplitWs_tokens_wf _ w hmem
  rw [pySplitWs_pyJoinWords _ hwf]
  split_ifs with h
  · simp only [List.length_take]
    omega
  · omega

/-- C8: every wikipedia or quote fetch returns either text meeting its
contract (≥ 40 chars and ≤ 200 words for wikipedia, ≥ 20 chars for a quote) or
the single unavailable value `none`; every failure mode (network failure,
falsy or mis-shaped JSON, too-short text) yields `none`, and the cache is only
ever updated with contract-meeting text, so cached returns meet the contract
as well. -/
theorem external_fetch_contract :
    (∀ (use_cache : Bool) (cache : Option String) (net : Option Db.Json),
      (∀ s, cache = some s → ValidWikiText s) →
      ((fetch_wikipedia use_cache cache net).1 = none ∨
        ∃ t, (fetch_wikipedia use_cache cache net).1 = some t ∧ ValidWikiText t) ∧
      (∀ s, (fetch_wikipedia use_cache cache net).2 = some s → ValidWikiText s)) ∧
    (∀ (use_cache : Bool) (cache : Option String) (net : Option Db.Json),
      (∀ s, cache = some s → ValidQuoteText s) →
      ((fetch_quote use_cache cache net).1 = none ∨
        ∃ t, (fetch_quote use_cache cache net).1 = some t ∧ ValidQuoteText t) ∧
      (∀ s, (fetch_quote use_cache cache net).2 = some s → ValidQuoteText s)) := by
  constructor
  · intro uc cache net hc
    unfold fetch_wikipedia
    split
    next s heq =>
      exact ⟨Or.inr ⟨s, rfl, hc s (cacheHit_some uc cache s heq)⟩,
        fun x hx => hc x hx⟩
    next heq =>
      split
      next => exact ⟨Or.inl rfl, fun x hx => hc x hx⟩
      next data =>
        split
        next h1 => exact ⟨Or.inl rfl, fun x hx => hc x hx⟩
        next h1 =>
          split
          next h2 => exact ⟨Or.inl rfl, fun x hx => hc x hx⟩
          next h2 =>
            split
            next h3 => exact ⟨Or.inl rfl, fun x hx => hc x hx⟩
            next h3 =>
              have hv : ValidWikiText (wikiProcessed (getStrField data "extract")) :=
                ⟨not_lt.mp h3, wikiProcessed_tokens _⟩
              exact ⟨Or.inr ⟨_, rfl, hv⟩,
                fun x hx => (Option.some.inj hx) ▸ hv⟩
  · intro uc cache net hc
    unfold fetch_quote
    split
    next s heq =>
      exact ⟨Or.inr ⟨s, rfl, hc s (cacheHit_some uc cache s heq)⟩,
        fun x hx => hc x hx⟩
    next heq =>
      split
      next => exact ⟨Or.inl rfl, fun x hx => hc x hx⟩
      next data =>
        split
        next h1 => exact ⟨Or.inl rfl, fun x hx => hc x hx⟩
        next h1 =>
          split
          next => exact ⟨Or.inl rfl, fun x hx => hc x hx⟩
          next item hitem =>
            split
            next h2 => exact ⟨Or.inl rfl, fun x hx => hc x hx⟩
            next h2 =>
              split
              next h3 => exact ⟨Or.inl rfl, fun x hx => hc x hx⟩
              next h3 =>
                have hv : ValidQuoteText
                    (pyClean (getStrField item "content" ++ " — " ++
                      getStrField item "author")) := not_lt.mp h3
                exact ⟨Or.inr ⟨_, rfl, hv⟩,
                  fun x hx => (Option.some.inj hx) ▸ hv⟩

/-- Witness for C8: with caching off, an empty cache and a failed network
fetch, both fetchers collapse to the unavailable value. -/
theorem external_fetch_contract_witness :
    (fetch_wikipedia false none none).1 = none ∧
    (fetch_quote false none none).1 = none := by
  have h1 := (external_fetch_contract.1 false none none (fun s hs => by simp at hs)).1
  have h2 := (external_fetch_contract.2 false none none (fun s hs => by simp at hs)).1
  constructor
  · rcases h1 with h1 | ⟨t, ht, _⟩
    · exact h1
    · simpa [fetch_wikipedia, cacheHit] using ht
  · rcases h2 with h2 | ⟨t, ht, _⟩
    · exact h2
    · simpa [fetch_quote, cacheHit] using ht

end Loader

end Key4ce
